import Mathlib

/-
Verification of breakItUp.py (metrical hierarchy construction and
boundary-aware span splitting, the ReGrouper algorithm).

Offsets, durations and pulse lengths are modelled as exact rationals.
The Python source computes with floats, but every value arising from the
supported time signatures is a dyadic rational of small magnitude, for
which IEEE double arithmetic is exact, so the rational model is faithful.

The mutually recursive ReGrouper.levelPass / ReGrouper.advanceOneStep pair
is modelled as a single fuel-indexed step function (rgRun); `none` models
a computation that did not finish within the given fuel.  Python exceptions
are modelled with the PyError type.
-/

/-- Python-style errors raised by the translated functions. -/
inductive PyError where
  | valueError
  | attributeError
  | indexError
deriving DecidableEq

deriving instance DecidableEq for Except

/-- Splits a list of characters at every occurrence of the separator,
mirroring Python str.split with a single-character separator. -/
def splitOnChar (c : Char) : List Char → List (List Char)
  | [] => [[]]
  | x :: xs =>
    if x = c then [] :: splitOnChar c xs
    else
      match splitOnChar c xs with
      | [] => [[x]]
      | y :: ys => (x :: y) :: ys

/-- Value of a decimal digit character. -/
def digitVal (c : Char) : Option Nat :=
  if c.isDigit then some (c.toNat - 48) else none

/-- Accumulating decimal parser over a character list. -/
def parseDigitsAux : Nat → List Char → Option Nat
  | acc, [] => some acc
  | acc, c :: cs =>
    match digitVal c with
    | some d => parseDigitsAux (acc * 10 + d) cs
    | none => none

/-- Python int() on a plain (optionally signed) digit string.  Exotic
literal forms (surrounding whitespace, underscores) are not modelled;
the claims only involve plain digit strings. -/
def pyInt (chars : List Char) : Except PyError Int :=
  match chars with
  | [] => Except.error PyError.valueError
  | c :: cs =>
    if c = '-' then
      match cs with
      | [] => Except.error PyError.valueError
      | _ :: _ =>
        match parseDigitsAux 0 cs with
        | some n => Except.ok (-(n : Int))
        | none => Except.error PyError.valueError
    else if c = '+' then
      match cs with
      | [] => Except.error PyError.valueError
      | _ :: _ =>
        match parseDigitsAux 0 cs with
        | some n => Except.ok (n : Int)
        | none => Except.error PyError.valueError
    else
      match parseDigitsAux 0 (c :: cs) with
      | some n => Except.ok (n : Int)
      | none => Except.error PyError.valueError

/-- The supported time-signature denominators of breakItUp.py. -/
def supportedDenominators : List Int := [1, 2, 4, 8, 16, 32, 64]

/-- offsetsFromLengths with includeMeasureLength = True (the only form the
source uses).  np.arange(0, measureLength, pulseLength) yields
i * pulseLength for 0 ≤ i < ⌈measureLength / pulseLength⌉ (exact for the
dyadic values in play), and the measure length is appended. -/
def offsetsFromLengths (measureLength pulseLength : ℚ) : List ℚ :=
  ((List.range (Int.toNat ⌈measureLength / pulseLength⌉)).map
    (fun i => (i : ℚ) * pulseLength)) ++ [measureLength]

/-- Helper for offsetsFromBeatPattern: the running count starts at 0, each
beat value is added to it, and every count (including the final one, since
includeMeasureLength is always True at the call sites) is converted to a
quarter-length offset. -/
def offsetsFromBeatPatternAux (denominator : Int) : Int → List Int → List ℚ
  | count, [] => [(count : ℚ) * 4 / (denominator : ℚ)]
  | count, x :: rest =>
    ((count : ℚ) * 4 / (denominator : ℚ)) :: offsetsFromBeatPatternAux denominator (count + x) rest

/-- offsetsFromBeatPattern with includeMeasureLength = True. -/
def offsetsFromBeatPattern (beatList : List Int) (denominator : Int) : List ℚ :=
  offsetsFromBeatPatternAux denominator 0 beatList

/-- The numerator list after the hidden-layer substitution: either still a
flat list of beat counts or a list of parallel grouping levels. -/
inductive NumeratorSpec where
  | flat (l : List Int)
  | nested (ll : List (List Int))

/-- The hiddenLayerMappings table of offsetHierarchyFromTS.  The Python
loop applies at most one substitution because no substituted value matches
a later pattern. -/
def hiddenLayerSubst (nums : List Int) : NumeratorSpec :=
  if nums = [4] then NumeratorSpec.flat [2, 2]
  else if nums = [6] then NumeratorSpec.flat [3, 3]
  else if nums = [9] then NumeratorSpec.flat [3, 3, 3]
  else if nums = [12] then NumeratorSpec.nested [[6, 6], [3, 3, 3, 3]]
  else if nums = [15] then NumeratorSpec.flat [3, 3, 3, 3, 3]
  else if nums = [6, 9] then NumeratorSpec.nested [[6, 9], [3, 3, 3, 3, 3]]
  else if nums = [9, 6] then NumeratorSpec.nested [[6, 6], [3, 3, 3, 3, 3]]
  else NumeratorSpec.flat nums

/-- offsetHierarchyFromTS: build the offset hierarchy for a time-signature
string.  The Python default minimumPulse = 64 is passed explicitly by
callers of this translation. -/
def offsetHierarchyFromTS (tsStr : String) (minimumPulse : Int) :
    Except PyError (List (List ℚ)) := do
  let parts := splitOnChar '/' tsStr.toList
  match parts with
  | [numeratorChars, denominatorChars] =>
    let numerators ← (splitOnChar '+' numeratorChars).mapM pyInt
    let denominator ← pyInt denominatorChars
    if denominator ∉ supportedDenominators then
      Except.error PyError.valueError
    else if minimumPulse ∉ supportedDenominators then
      Except.error PyError.valueError
    else
      let spec := hiddenLayerSubst numerators
      let sumNum : Int :=
        match spec with
        | NumeratorSpec.flat l => l.sum
        | NumeratorSpec.nested ll => (ll.headD []).sum
      let measureLength : ℚ := (sumNum : ℚ) * 4 / (denominator : ℚ)
      let hidden : List (List ℚ) :=
        match spec with
        | NumeratorSpec.flat l =>
          if 1 < l.length then [offsetsFromBeatPattern l denominator] else []
        | NumeratorSpec.nested ll =>
          if 1 < ll.length then
            ll.map (fun level => offsetsFromBeatPattern level denominator)
          else []
      let thisDenominatorPower := supportedDenominators.indexOf denominator
      let maxDenominatorPower := supportedDenominators.indexOf minimumPulse
      let denomLevels :=
        ((supportedDenominators.drop thisDenominatorPower).take
            (maxDenominatorPower + 1 - thisDenominatorPower)).map
          (fun thisDenominator => offsetsFromLengths measureLength (4 / (thisDenominator : ℚ)))
      Except.ok ([[0, measureLength]] ++ hidden ++ denomLevels)
  | _ => Except.error PyError.valueError

/-- offsetsFromTSAndLevels with useMusic21 = False (the default; the
music21 path is an out-of-scope external collaborator).  The Python
default for levels is [0, 1, 2, 3]; callers of this translation pass it
explicitly.  Python max([]) raises ValueError; an out-of-range level index
raises IndexError. -/
def offsetsFromTSAndLevels (timeSigStr : String) (levels : List Nat) :
    Except PyError (List (List ℚ)) := do
  match levels.max? with
  | none => Except.error PyError.valueError
  | some m =>
    if 6 < m then Except.error PyError.valueError
    else
      let sortedLevels := levels.insertionSort (fun a b => a ≤ b)
      let levels2 := if 0 ∈ sortedLevels then sortedLevels else 0 :: sortedLevels
      let fullHierarchy ← offsetHierarchyFromTS timeSigStr 64
      levels2.mapM (fun level =>
        if level < fullHierarchy.length then Except.ok (fullHierarchy.getD level [])
        else Except.error PyError.indexError)

/-- The 2:1-or-3:1 consecutive-ratio test of offsetListFromPulseLengths. -/
def pulseRatiosOK : List ℚ → Bool
  | a :: b :: rest => (decide (a / b = 2) || decide (a / b = 3)) && pulseRatiosOK (b :: rest)
  | _ => true

/-- offsetListFromPulseLengths.  The Python defaults are
measureLength = None and require2or3betweenLevels = False (note that the
function's own docstring asserts the check is on by default).  Python
truthiness makes an explicit measureLength of 0 behave like None. -/
def offsetListFromPulseLengths (pulseLengths : List ℚ) (measureLength : Option ℚ)
    (require2or3betweenLevels : Bool) : Except PyError (List (List ℚ)) :=
  let sortedPulses := (pulseLengths.insertionSort (fun a b => a ≤ b)).reverse
  match sortedPulses with
  | [] => Except.error PyError.indexError
  | p0 :: _ =>
    let mlCheck : Except PyError ℚ :=
      match measureLength with
      | none => Except.ok p0
      | some v =>
        if v = 0 then Except.ok p0
        else if v < p0 then Except.error PyError.valueError
        else Except.ok v
    match mlCheck with
    | Except.error e => Except.error e
    | Except.ok ml =>
      if require2or3betweenLevels && !(pulseRatiosOK sortedPulses) then
        Except.error PyError.valueError
      else
        Except.ok (sortedPulses.map (fun pulseLength => offsetsFromLengths ml pulseLength))

/-- Python truthiness of an optional list: None and [] are falsy. -/
def truthy {α : Type} (o : Option (List α)) : Bool :=
  match o with
  | some l => !l.isEmpty
  | none => false

/-- The hierarchy-selection logic of ReGrouper.__init__ (precedence:
offsetHierarchy, then pulseLengths, then levels with a time signature,
then the time signature alone).  When all four sources are absent the
Python code calls offsetsFromTSAndLevels(None) and crashes inside
offsetHierarchyFromTS with AttributeError (None.split); the final
`if not self.offsetHierarchy` ValueError of the source is modelled by the
trailing isEmpty check (unreachable in practice). -/
def reGrouperHierarchy (timeSignature : Option String) (levels : Option (List Nat))
    (pulseLengths : Option (List ℚ)) (offsetHierarchy : Option (List (List ℚ))) :
    Except PyError (List (List ℚ)) := do
  let oh ←
    if truthy offsetHierarchy then Except.ok (offsetHierarchy.getD [])
    else if truthy pulseLengths then
      offsetListFromPulseLengths (pulseLengths.getD []) none false
    else if truthy levels then
      match timeSignature with
      | none => Except.error PyError.valueError
      | some ts =>
        if ts.isEmpty then Except.error PyError.valueError
        else offsetsFromTSAndLevels ts (levels.getD [])
    else
      match timeSignature with
      | none => Except.error PyError.attributeError
      | some ts => offsetsFromTSAndLevels ts [0, 1, 2, 3]
  if oh.isEmpty then Except.error PyError.valueError
  else Except.ok oh

/-- The mutable cursor state of one ReGrouper invocation: updatedOffset,
remainingLength and the accumulated offsetDurationPairs. -/
structure RGState where
  updatedOffset : ℚ
  remainingLength : ℚ
  pairs : List (ℚ × ℚ)
deriving DecidableEq

/-- Which of the two mutually recursive methods is executing: levelPass
(from a given level index of its for-loop) or advanceOneStep (with the
positions still to scan). -/
inductive RGCall where
  | level (i : Nat)
  | advance (ps : List ℚ)

/-- One fuel-indexed interpreter for the mutually recursive
ReGrouper.levelPass / ReGrouper.advanceOneStep pair.

`RGCall.level i` is the levelPass for-loop resumed at index i (i = 0 is a
fresh levelPass call); after the loop, levelPass re-runs advanceOneStep on
the weakest level and then restarts itself when remainingLength > 0.
`RGCall.advance ps` is advanceOneStep scanning the remaining positions ps.
Python returns from advanceOneStep back into the caller's for-loop, which
continues at the next index: this is the `.bind` continuation.

Fuel is decremented at every recursive call; `none` means the fuel ran
out, so `some` results are exactly the terminating Python computations. -/
def rgRun (h : List (List ℚ)) (splitSameLevel : Bool) :
    Nat → RGCall → RGState → Option RGState
  | 0, _, _ => none
  | fuel + 1, RGCall.level i, s =>
    if i < h.length then
      if s.remainingLength ≤ 0 then some s
      else if s.updatedOffset ∈ h.getD i [] then
        if i = 0 then
          some ⟨s.updatedOffset, s.remainingLength,
            s.pairs ++ [(s.updatedOffset, s.remainingLength)]⟩
        else
          (rgRun h splitSameLevel fuel
              (RGCall.advance (if splitSameLevel then h.getD i [] else h.getD (i - 1) [])) s).bind
            (fun s1 => rgRun h splitSameLevel fuel (RGCall.level (i + 1)) s1)
      else rgRun h splitSameLevel fuel (RGCall.level (i + 1)) s
    else
      if 0 < s.remainingLength then
        (rgRun h splitSameLevel fuel (RGCall.advance (h.getLastD [])) s).bind
          (fun s1 => rgRun h splitSameLevel fuel (RGCall.level 0) s1)
      else some s
  | _ + 1, RGCall.advance [], s => some s
  | fuel + 1, RGCall.advance (p :: ps), s =>
    if s.updatedOffset < p then
      if s.remainingLength ≤ p - s.updatedOffset then
        some ⟨s.updatedOffset, s.remainingLength - (p - s.updatedOffset),
          s.pairs ++ [(s.updatedOffset, s.remainingLength)]⟩
      else
        rgRun h splitSameLevel fuel (RGCall.level 0)
          ⟨p, s.remainingLength - (p - s.updatedOffset),
            s.pairs ++ [(s.updatedOffset, p - s.updatedOffset)]⟩
    else rgRun h splitSameLevel fuel (RGCall.advance ps) s

/-- The full ReGrouper: select the hierarchy as __init__ does, then run
levelPass from the initial cursor state and return offsetDurationPairs.
The inner Option is the fuel bound of the splitter. -/
def reGrouper (fuel : Nat) (noteStartOffset noteLength : ℚ) (timeSignature : Option String)
    (levels : Option (List Nat)) (pulseLengths : Option (List ℚ))
    (offsetHierarchy : Option (List (List ℚ))) (splitSameLevel : Bool) :
    Except PyError (Option (List (ℚ × ℚ))) := do
  let oh ← reGrouperHierarchy timeSignature levels pulseLengths offsetHierarchy
  Except.ok ((rgRun oh splitSameLevel fuel (RGCall.level 0)
    ⟨noteStartOffset, noteLength, []⟩).map RGState.pairs)

/-- Projection dropping the error of an Except value. -/
def exceptValue {α : Type} : Except PyError α → Option α
  | Except.ok a => some a
  | Except.error _ => none

/-- The monotone-refinement invariant of section 3 of the specification:
every offset of a level also belongs to every weaker (finer) level. -/
def monotoneRefinement (h : List (List ℚ)) : Prop :=
  ∀ i : Fin h.length, ∀ j : Fin h.length, i.val ≤ j.val →
    ∀ x ∈ h.getD i.val [], x ∈ h.getD j.val []

instance (h : List (List ℚ)) : Decidable (monotoneRefinement h) := by
  unfold monotoneRefinement
  infer_instance

/-- Boolean test that a list of offsets is strictly increasing. -/
def strictlyIncreasingB : List ℚ → Bool
  | a :: b :: rest => decide (a < b) && strictlyIncreasingB (b :: rest)
  | _ => true

/-- A strictly increasing offset list (section 3: levels are ordered and
deduplicated by construction). -/
def strictlyIncreasing (l : List ℚ) : Prop := strictlyIncreasingB l = true

instance (l : List ℚ) : Decidable (strictlyIncreasing l) := by
  unfold strictlyIncreasing
  infer_instance

/-- The section-3 invariants of a hierarchy with the given measure length:
a positive measure length, a nonempty level list whose level 0 is
[0, measureLength], strictly increasing levels that start at 0 and end at
the measure length, and monotone refinement. -/
def ValidHierarchy (h : List (List ℚ)) (measureLength : ℚ) : Prop :=
  0 < measureLength ∧
  0 < h.length ∧
  h.getD 0 [] = [0, measureLength] ∧
  (∀ lvl ∈ h, strictlyIncreasing lvl ∧
    lvl.head? = some 0 ∧ lvl.getLast? = some measureLength) ∧
  monotoneRefinement h

instance (h : List (List ℚ)) (measureLength : ℚ) :
    Decidable (ValidHierarchy h measureLength) := by
  unfold ValidHierarchy
  infer_instance

/-- A contiguous fragment chain starting at a given position: each
fragment starts where demanded and the next fragment starts at
position + length. -/
def chainFrom : ℚ → List (ℚ × ℚ) → Prop
  | _, [] => True
  | x, pr :: rest => pr.1 = x ∧ chainFrom (pr.1 + pr.2) rest

/-- The postcondition of a completed splitter run from state s: the pairs
are extended by a contiguous chain starting at the cursor whose lengths
sum to the remaining length, and the remaining length has been driven
at or below zero. -/
def RunPost (s r : RGState) : Prop :=
  ∃ d, r.pairs = s.pairs ++ d ∧ chainFrom s.updatedOffset d ∧
    (d.map Prod.snd).sum = s.remainingLength ∧ r.remainingLength ≤ 0

/-- The termination measure: how many boundaries of the weakest (finest)
level lie strictly beyond the cursor. -/
def mCount (h : List (List ℚ)) (s : RGState) : Nat :=
  (h.getLastD []).countP (fun x => decide (s.updatedOffset < x))

/-- The four levels that ReGrouper uses for a plain 4/4 time signature
(levels 0 to 3 of the full signature hierarchy). -/
def hierarchy44 : List (List ℚ) :=
  [[0, 4], [0, 2, 4], [0, 1, 2, 3, 4],
   [0, 1/2, 1, 3/2, 2, 5/2, 3, 7/2, 4]]

/-- C2: splitting the canonical 4/4 example, ReGrouper(0.25, 2.0,
timeSignature='4/4') yields exactly
[(0.25, 0.25), (0.5, 0.5), (1.0, 1.0), (2.0, 0.25)]. -/
theorem c2_canonical_44_example :
    reGrouper 200 (1/4) 2 (some (r"4/4")) none none none false =
      Except.ok (some [(1/4, 1/4), (1/2, 1/2), (1, 1), (2, 1/4)]) := by
  with_unfolding_all rfl

/-- C4: in 6/8, a span at offset 0.5 of length 1.0 gives [(0.5, 1.0)]
without the same-level split and [(0.5, 0.5), (1.0, 0.5)] with it. -/
theorem c4_68_same_level_split :
    reGrouper 200 (1/2) 1 (some (r"6/8")) none none none false =
      Except.ok (some [(1/2, 1)]) ∧
    reGrouper 200 (1/2) 1 (some (r"6/8")) none none none true =
      Except.ok (some [(1/2, 1/2), (1, 1/2)]) :=
  of_decide_eq_true (by with_unfolding_all rfl)

/-- C5 counterexample: offsetHierarchyFromTS('2+2+3/8') has level 0
[0.0, 3.5], not the claimed [0.0, 4.5]: the numerators sum to 7, so the
measure length is 7 * 4 / 8 = 3.5 (the docstring example says 4.5). -/
theorem c5_counterexample :
    ¬ ((exceptValue (offsetHierarchyFromTS (r"2+2+3/8") 64)).map (fun h => h.getD 0 []) =
        some [0, 9/2] ∧
       (exceptValue (offsetHierarchyFromTS (r"2+2+3/8") 64)).map (fun h => h.getD 1 []) =
        some [0, 1, 2, 9/2]) :=
  of_decide_eq_true (by with_unfolding_all rfl)

/-- C5 amended: offsetHierarchyFromTS('2+2+3/8') returns level 0
[0.0, 3.5] and level 1 [0.0, 1.0, 2.0, 3.5]. -/
theorem c5_amended :
    (exceptValue (offsetHierarchyFromTS (r"2+2+3/8") 64)).map
        (fun h => (h.getD 0 [], h.getD 1 [])) =
      some ([0, 7/2], [0, 1, 2, 7/2]) := by
  with_unfolding_all rfl

/-- C3: the hidden-layer table entry for [9, 6] substitutes
[[6, 6], [3, 3, 3, 3, 3]], whose groups sum to 12 and 15; the measure
length is computed from the first group (6.0) while the second hidden
level ends at 7.5, so monotone refinement fails for '9+6/8': offset 7.5
appears in level 2 but not in level 3. -/
theorem c3_monotone_refinement_failure :
    (exceptValue (offsetHierarchyFromTS (r"9+6/8") 64)).map
        (fun h => decide (monotoneRefinement h)) = some false ∧
    (exceptValue (offsetHierarchyFromTS (r"9+6/8") 64)).map
        (fun h => (decide ((15/2 : ℚ) ∈ h.getD 2 []), decide ((15/2 : ℚ) ∈ h.getD 3 []))) =
      some (true, false) :=
  of_decide_eq_true (by with_unfolding_all rfl)

/-- C6: the 2:1-or-3:1 ratio check is off by default: with the default
arguments (measureLength None, require2or3betweenLevels False) the pulse
list [4, 1] (ratio 4) is accepted, both directly and through ReGrouper's
pulse-length path (which passes False explicitly); only an explicit True
makes it fail. -/
theorem c6_ratio_check_default_off :
    offsetListFromPulseLengths [4, 1] none false =
      Except.ok [[0, 4], [0, 1, 2, 3, 4]] ∧
    reGrouperHierarchy none none (some [4, 1]) none =
      Except.ok [[0, 4], [0, 1, 2, 3, 4]] ∧
    offsetListFromPulseLengths [4, 1] none true = Except.error PyError.valueError :=
  of_decide_eq_true (by with_unfolding_all rfl)

/-- C7: with all four hierarchy sources absent, construction reaches
offsetsFromTSAndLevels(None) and fails with AttributeError (None.split)
before the intended "at least one source" ValueError can fire. -/
theorem c7_all_sources_absent_attribute_error :
    reGrouperHierarchy none none none none = Except.error PyError.attributeError ∧
    PyError.attributeError ≠ PyError.valueError :=
  of_decide_eq_true (by with_unfolding_all rfl)

/-- C8 counterexample: a startOffset outside [0, measureLength) raises
nothing: ReGrouper(-0.5, 0.25, timeSignature='4/4') completes normally and
returns [(-0.5, 0.25)]. -/
theorem c8_counterexample :
    reGrouper 200 (-(1/2)) (1/4) (some (r"4/4")) none none none false =
      Except.ok (some [(-(1/2), 1/4)]) := by
  with_unfolding_all rfl

/-- C8 amended: the primary splitting mode performs no startOffset range
validation: out-of-range spans are processed silently through the
not-on-any-boundary fallback (and can even duplicate the final fragment
once the cursor reaches offset 0). -/
theorem c8_amended_no_range_check :
    reGrouper 200 (-(1/2)) (1/4) (some (r"4/4")) none none none false =
      Except.ok (some [(-(1/2), 1/4)]) ∧
    reGrouper 200 (-(1/2)) 1 (some (r"4/4")) none none none false =
      Except.ok (some [(-(1/2), 1/2), (0, 1/2), (0, 1/2)]) :=
  of_decide_eq_true (by with_unfolding_all rfl)

/-- C1 counterexample: for the in-range start 3.0 with positive length 2.0
in 4/4 (a span overflowing the measure), ReGrouper emits
[(3, 1), (4, 1), (4, 1)]: the final fragment is duplicated, so the
fragment lengths sum to 3, not to the span length 2. -/
theorem c1_counterexample :
    reGrouper 200 3 2 (some (r"4/4")) none none none false =
      Except.ok (some [(3, 1), (4, 1), (4, 1)]) ∧
    (([(3, 1), (4, 1), (4, 1)] : List (ℚ × ℚ)).map Prod.snd).sum ≠ 2 :=
  of_decide_eq_true (by with_unfolding_all rfl)

/-- C10: a ReGrouper built from timeSignature '4/4' alone splits against
exactly levels 0-3 of the full signature hierarchy (the default levels
argument [0, 1, 2, 3]); the full hierarchy has 7 levels; 0.125 is on none
of the four used levels (it belongs to level 5 of the full hierarchy), so
it is handled by the not-on-any-boundary fallback, e.g. the span
(0.125, 0.375) maps to the single fragment (0.125, 0.375). -/
theorem c10_default_levels_limited :
    reGrouperHierarchy (some (r"4/4")) none none none = Except.ok hierarchy44 ∧
    (exceptValue (offsetHierarchyFromTS (r"4/4") 64)).map (fun full => full.take 4) =
      some hierarchy44 ∧
    (exceptValue (offsetHierarchyFromTS (r"4/4") 64)).map List.length = some 7 ∧
    hierarchy44.all (fun lvl => !(decide ((1/8 : ℚ) ∈ lvl))) = true ∧
    (exceptValue (offsetHierarchyFromTS (r"4/4") 64)).map
        (fun full => decide ((1/8 : ℚ) ∈ full.getD 5 [])) = some true ∧
    reGrouper 200 (1/8) (3/8) (some (r"4/4")) none none none false =
      Except.ok (some [(1/8, 3/8)]) :=
  of_decide_eq_true (by with_unfolding_all rfl)

/-- Unfolding lemma for strictlyIncreasing on a two-or-more list. -/
theorem strictlyIncreasing_cons {a b : ℚ} {t : List ℚ} :
    strictlyIncreasing (a :: b :: t) ↔ a < b ∧ strictlyIncreasing (b :: t) := by
  simp [strictlyIncreasing, strictlyIncreasingB]

/-- In a strictly increasing list, every member is at most the last entry. -/
theorem le_getLast_of_strictlyIncreasing :
    ∀ {l : List ℚ} {m : ℚ}, strictlyIncreasing l → l.getLast? = some m →
      ∀ x ∈ l, x ≤ m
  | [], _, _, hlast, _, hx => by cases hx
  | [a], m, _, hlast, x, hx => by
    have hxa : x = a := by simpa using hx
    have ham : a = m := by simpa using hlast
    simp [hxa, ham]
  | a :: b :: t, m, hinc, hlast, x, hx => by
    rcases strictlyIncreasing_cons.mp hinc with ⟨hab, hrest⟩
    have hlast2 : (b :: t).getLast? = some m := by
      simpa [List.getLast?_cons_cons] using hlast
    have ih := le_getLast_of_strictlyIncreasing hrest hlast2
    rcases List.mem_cons.mp hx with hx1 | hx1
    · have hbm : b ≤ m := ih b (by simp)
      exact le_of_lt (lt_of_lt_of_le (hx1 ▸ hab) hbm)
    · exact ih x hx1

/-- The value of getLast? is a member. -/
theorem mem_of_getLast?_eq :
    ∀ {l : List ℚ} {m : ℚ}, l.getLast? = some m → m ∈ l
  | [], _, hlast => by cases hlast
  | [a], m, hlast => by
    have ham : a = m := by simpa using hlast
    simp [ham]
  | a :: b :: t, m, hlast => by
    have hlast2 : (b :: t).getLast? = some m := by
      simpa [List.getLast?_cons_cons] using hlast
    exact List.mem_cons_of_mem a (mem_of_getLast?_eq hlast2)

/-- getD at a valid index is a member of the list. -/
theorem getD_mem_of_lt : ∀ {h : List (List ℚ)} {i : Nat}, i < h.length → h.getD i [] ∈ h
  | [], i, hi => by cases hi
  | lvl :: rest, 0, _ => by simp
  | lvl :: rest, i + 1, hi => by
    have := @getD_mem_of_lt rest i (by simpa using hi)
    simp only [List.getD_cons_succ]
    exact List.mem_cons_of_mem lvl this

/-- getLastD of a nonempty list is a member. -/
theorem getLastD_mem : ∀ {h : List (List ℚ)}, h ≠ [] → h.getLastD [] ∈ h
  | [], hne => absurd rfl hne
  | [lvl], _ => by simp [List.getLastD]
  | lvl :: l2 :: rest, _ => by
    have h1 : (lvl :: l2 :: rest).getLastD [] = (l2 :: rest).getLastD [] := by
      simp [List.getLastD_cons]
    rw [h1]
    exact List.mem_cons_of_mem lvl (getLastD_mem (by simp))

/-- getLastD of a nonempty list equals getD at the last index. -/
theorem getLastD_eq_getD : ∀ {h : List (List ℚ)}, h ≠ [] →
    h.getLastD [] = h.getD (h.length - 1) []
  | [], hne => absurd rfl hne
  | [lvl], _ => by simp [List.getLastD]
  | lvl :: l2 :: rest, _ => by
    have h1 : (lvl :: l2 :: rest).getLastD [] = (l2 :: rest).getLastD [] := by
      simp [List.getLastD_cons]
    have h2 := @getLastD_eq_getD (l2 :: rest) (by simp)
    rw [h1, h2]
    simp [List.getD_cons_succ, List.length_cons]

/-- Strict decrease of the strictly-above count when stepping up to a
member of the list. -/
theorem countP_lt_of_mem_of_lt :
    ∀ {l : List ℚ} {a b : ℚ}, a < b → b ∈ l →
      l.countP (fun x => decide (b < x)) < l.countP (fun x => decide (a < x))
  | [], _, _, _, hb => by cases hb
  | c :: t, a, b, hab, hb => by
    have hmono : ∀ l2 : List ℚ,
        l2.countP (fun x => decide (b < x)) ≤ l2.countP (fun x => decide (a < x)) := by
      intro l2
      apply List.countP_mono_left
      intro x _ hx
      simp at hx ⊢
      exact lt_trans hab hx
    have e1 := List.countP_cons (fun x => decide (b < x)) c t
    have e2 := List.countP_cons (fun x => decide (a < x)) c t
    rcases List.mem_cons.mp hb with hcb | hbt
    · have h1 : ¬ (b < c) := by simp [hcb]
      have h2 : a < c := hcb ▸ hab
      rw [if_neg (by simpa using h1)] at e1
      rw [if_pos (by simpa using h2)] at e2
      have := hmono t
      omega
    · have ih := countP_lt_of_mem_of_lt hab hbt
      have hc : (if (decide (b < c) : Bool) = true then 1 else 0) ≤
          (if (decide (a < c) : Bool) = true then 1 else 0) := by
        by_cases hbc : b < c
        · simp [hbc, lt_trans hab hbc]
        · by_cases hac : a < c <;> simp [hbc, hac]
      omega

/-- Every level of a valid hierarchy contains the measure length. -/
theorem valid_ML_mem {h : List (List ℚ)} {ML : ℚ} (hv : ValidHierarchy h ML)
    {lvl : List ℚ} (hlvl : lvl ∈ h) : ML ∈ lvl :=
  mem_of_getLast?_eq (hv.2.2.2.1 lvl hlvl).2.2

/-- Every offset of a level of a valid hierarchy is at most the measure
length. -/
theorem valid_le {h : List (List ℚ)} {ML : ℚ} (hv : ValidHierarchy h ML)
    {lvl : List ℚ} (hlvl : lvl ∈ h) : ∀ x ∈ lvl, x ≤ ML :=
  le_getLast_of_strictlyIncreasing (hv.2.2.2.1 lvl hlvl).1 (hv.2.2.2.1 lvl hlvl).2.2

/-- Membership in level 0 of a valid hierarchy means offset 0 or the
measure length. -/
theorem valid_mem_level0 {h : List (List ℚ)} {ML : ℚ} (hv : ValidHierarchy h ML)
    {x : ℚ} (hx : x ∈ h.getD 0 []) : x = 0 ∨ x = ML := by
  rw [hv.2.2.1] at hx
  simpa using hx

/-- Monotone refinement: every offset of any level is in the weakest
level. -/
theorem valid_finest_mem {h : List (List ℚ)} {ML : ℚ} (hv : ValidHierarchy h ML)
    {i : Nat} (hi : i < h.length) {x : ℚ} (hx : x ∈ h.getD i []) :
    x ∈ h.getLastD [] := by
  have hne : h ≠ [] := by
    intro he
    rw [he] at hi
    cases hi
  have hlen : h.length - 1 < h.length := by
    have := hv.2.1
    omega
  have := hv.2.2.2.2 ⟨i, hi⟩ ⟨h.length - 1, hlen⟩ (by simp; omega) x hx
  rw [getLastD_eq_getD hne]
  exact this

/-- A contiguous chain determines the head position. -/
theorem chainFrom_head {x : ℚ} : ∀ {l : List (ℚ × ℚ)}, chainFrom x l → l ≠ [] →
    l.head?.map Prod.fst = some x
  | [], _, hne => absurd rfl hne
  | pr :: rest, hc, _ => by
    simp [chainFrom] at hc
    simp [hc.1]

/-- A nonzero length sum forces a nonempty chain. -/
theorem ne_nil_of_sum_ne_zero {l : List (ℚ × ℚ)} (hs : (l.map Prod.snd).sum ≠ 0) :
    l ≠ [] := by
  intro he
  rw [he] at hs
  simp at hs

/-- levelPass returns immediately when the remaining length is gone. -/
theorem rg_stop {h : List (List ℚ)} {sp : Bool} {i : Nat} {s : RGState} {fuel : Nat}
    (hrem : s.remainingLength ≤ 0) :
    rgRun h sp (fuel + 1) (RGCall.level i) s = some s := by
  simp only [rgRun]
  by_cases hi : i < h.length
  · simp [hi, hrem]
  · simp [hi, not_lt.mpr hrem]

/-- Inversion of a successful levelPass call with no remaining length. -/
theorem rg_stop_inv {h : List (List ℚ)} {sp : Bool} {i : Nat} {s r : RGState} {fuel : Nat}
    (hrem : s.remainingLength ≤ 0)
    (hrun : rgRun h sp fuel (RGCall.level i) s = some r) : r = s := by
  cases fuel with
  | zero => simp [rgRun] at hrun
  | succ fuel =>
    rw [rg_stop hrem] at hrun
    exact (Option.some.inj hrun).symm

/-- advanceOneStep does nothing when no position lies beyond the cursor. -/
theorem rg_adv_noop {h : List (List ℚ)} {sp : Bool} {s : RGState} :
    ∀ {ps : List ℚ}, (∀ p ∈ ps, ¬ s.updatedOffset < p) →
      rgRun h sp (ps.length + 1) (RGCall.advance ps) s = some s
  | [], _ => by simp [rgRun]
  | p :: ps, hall => by
    have hp : ¬ s.updatedOffset < p := hall p (by simp)
    have ih := @rg_adv_noop h sp s ps
      (fun q hq => hall q (List.mem_cons_of_mem p hq))
    simp only [rgRun, List.length_cons]
    simp [hp]
    exact ih

/-- A levelPass starting at level 0 with the cursor on a level-0 boundary
emits one final fragment, at any fuel. -/
theorem rg_emit0 {h : List (List ℚ)} {sp : Bool} {s : RGState} {fuel : Nat}
    (hlen : 0 < h.length) (hmem : s.updatedOffset ∈ h.getD 0 [])
    (hrem : 0 < s.remainingLength) :
    rgRun h sp (fuel + 1) (RGCall.level 0) s =
      some ⟨s.updatedOffset, s.remainingLength,
        s.pairs ++ [(s.updatedOffset, s.remainingLength)]⟩ := by
  have hmem2 : s.updatedOffset ∈ h[0] := by
    rwa [List.getD_eq_getElem h [] hlen] at hmem
  simp only [rgRun]
  simp [hlen, not_le.mpr hrem, hmem2]

/-- Fuel monotonicity: a result obtained with some fuel persists with one
more unit of fuel. -/
theorem rg_mono {h : List (List ℚ)} {sp : Bool} :
    ∀ {fuel : Nat} {c : RGCall} {s r : RGState},
      rgRun h sp fuel c s = some r → rgRun h sp (fuel + 1) c s = some r := by
  intro fuel
  induction fuel with
  | zero => intro c s r hrun; simp [rgRun] at hrun
  | succ fuel ih =>
    intro c s r hrun
    cases c with
    | level i =>
      rw [rgRun] at hrun
      rw [rgRun]
      by_cases hi : i < h.length
      · simp only [if_pos hi] at hrun ⊢
        by_cases hrem : s.remainingLength ≤ 0
        · simpa [hrem] using hrun
        · simp only [if_neg hrem] at hrun ⊢
          by_cases hmem : s.updatedOffset ∈ h.getD i []
          · simp only [if_pos hmem] at hrun ⊢
            by_cases hi0 : i = 0
            · simpa [hi0] using hrun
            · simp only [if_neg hi0] at hrun ⊢
              rcases Option.bind_eq_some.mp hrun with ⟨s1, hs1, hs2⟩
              rw [ih hs1]
              simpa using ih hs2
          · simp only [if_neg hmem] at hrun ⊢
            exact ih hrun
      · simp only [if_neg hi] at hrun ⊢
        by_cases hrem : 0 < s.remainingLength
        · simp only [if_pos hrem] at hrun ⊢
          rcases Option.bind_eq_some.mp hrun with ⟨s1, hs1, hs2⟩
          rw [ih hs1]
          simpa using ih hs2
        · simpa [hrem] using hrun
    | advance ps =>
      cases ps with
      | nil => simpa [rgRun] using hrun
      | cons p ps =>
        rw [rgRun] at hrun
        rw [rgRun]
        by_cases hp : s.updatedOffset < p
        · simp only [if_pos hp] at hrun ⊢
          by_cases hgap : s.remainingLength ≤ p - s.updatedOffset
          · simpa [hgap] using hrun
          · simp only [if_neg hgap] at hrun ⊢
            exact ih hrun
        · simp only [if_neg hp] at hrun ⊢
          exact ih hrun

/-- Fuel monotonicity for any larger amount of fuel. -/
theorem rg_mono_le {h : List (List ℚ)} {sp : Bool} {fuel g : Nat} {c : RGCall}
    {s r : RGState} (hle : fuel ≤ g)
    (hrun : rgRun h sp fuel c s = some r) : rgRun h sp g c s = some r := by
  induction g with
  | zero =>
    have : fuel = 0 := Nat.le_zero.mp hle
    rw [this] at hrun
    simp [rgRun] at hrun
  | succ g ihg =>
    rcases Nat.lt_or_ge fuel (g + 1) with hlt | hge
    · exact rg_mono (ihg (Nat.lt_succ_iff.mp hlt))
    · have : fuel = g + 1 := Nat.le_antisymm hle hge
      rwa [this] at hrun

/-- Weak invariants of successful splitter runs over a valid hierarchy:
the cursor never moves backwards or beyond the measure length, and a
completed run has either exhausted the span or parked the cursor exactly
on the measure length. -/
theorem run_weak {h : List (List ℚ)} {ML : ℚ} (hv : ValidHierarchy h ML) (sp : Bool) :
    ∀ fuel : Nat,
      (∀ (i : Nat) (s r : RGState), rgRun h sp fuel (RGCall.level i) s = some r →
        0 < s.updatedOffset → s.updatedOffset ≤ ML →
        0 < r.updatedOffset ∧ r.updatedOffset ≤ ML ∧ s.updatedOffset ≤ r.updatedOffset ∧
          (r.remainingLength ≤ 0 ∨ r.updatedOffset = ML)) ∧
      (∀ (ps : List ℚ) (s r : RGState), rgRun h sp fuel (RGCall.advance ps) s = some r →
        0 < s.updatedOffset → s.updatedOffset ≤ ML →
        (∀ p ∈ ps, p ≤ ML) → ((∃ p ∈ ps, s.updatedOffset < p) ∨ s.updatedOffset = ML) →
        0 < r.updatedOffset ∧ r.updatedOffset ≤ ML ∧ s.updatedOffset ≤ r.updatedOffset ∧
          (r.remainingLength ≤ 0 ∨ r.updatedOffset = ML)) := by
  have hne : h ≠ [] := by
    intro he
    have := hv.2.1
    rw [he] at this
    simp at this
  intro fuel
  induction fuel with
  | zero =>
    constructor
    · intro i s r hrun
      simp [rgRun] at hrun
    · intro ps s r hrun
      simp [rgRun] at hrun
  | succ fuel ih =>
    constructor
    · intro i s r hrun h0 hle
      rw [rgRun] at hrun
      by_cases hi : i < h.length
      · rw [if_pos hi] at hrun
        by_cases hrem : s.remainingLength ≤ 0
        · rw [if_pos hrem] at hrun
          obtain rfl : s = r := Option.some.inj hrun
          exact ⟨h0, hle, le_refl _, Or.inl hrem⟩
        · rw [if_neg hrem] at hrun
          by_cases hmem : s.updatedOffset ∈ h.getD i []
          · rw [if_pos hmem] at hrun
            by_cases hi0 : i = 0
            · rw [if_pos hi0] at hrun
              obtain rfl := (Option.some.inj hrun).symm
              rcases valid_mem_level0 hv (hi0 ▸ hmem) with hz | hML
              · exact absurd hz (ne_of_gt h0)
              · exact ⟨h0, hle, le_refl _, Or.inr hML⟩
            · rw [if_neg hi0] at hrun
              rcases Option.bind_eq_some.mp hrun with ⟨s1, hs1, hs2⟩
              have hlvl_mem : (if sp then h.getD i [] else h.getD (i - 1) []) ∈ h := by
                by_cases hsp : sp
                · simpa [hsp] using getD_mem_of_lt hi
                · have hi1 : i - 1 < h.length := by omega
                  simpa [hsp] using getD_mem_of_lt hi1
              have hdisj : (∃ p ∈ (if sp then h.getD i [] else h.getD (i - 1) []),
                  s.updatedOffset < p) ∨ s.updatedOffset = ML := by
                rcases lt_or_eq_of_le hle with hlt | heq
                · exact Or.inl ⟨ML, valid_ML_mem hv hlvl_mem, hlt⟩
                · exact Or.inr heq
              obtain ⟨h0a, hlea, hsa, _⟩ :=
                ih.2 _ s s1 hs1 h0 hle (valid_le hv hlvl_mem) hdisj
              obtain ⟨h0b, hleb, hsb, hdb⟩ := ih.1 _ s1 r hs2 h0a hlea
              exact ⟨h0b, hleb, le_trans hsa hsb, hdb⟩
          · rw [if_neg hmem] at hrun
            exact ih.1 _ s r hrun h0 hle
      · rw [if_neg hi] at hrun
        by_cases hrem : 0 < s.remainingLength
        · rw [if_pos hrem] at hrun
          rcases Option.bind_eq_some.mp hrun with ⟨s1, hs1, hs2⟩
          have hlvl_mem : h.getLastD [] ∈ h := getLastD_mem hne
          have hdisj : (∃ p ∈ h.getLastD [], s.updatedOffset < p) ∨
              s.updatedOffset = ML := by
            rcases lt_or_eq_of_le hle with hlt | heq
            · exact Or.inl ⟨ML, valid_ML_mem hv hlvl_mem, hlt⟩
            · exact Or.inr heq
          obtain ⟨h0a, hlea, hsa, _⟩ :=
            ih.2 _ s s1 hs1 h0 hle (valid_le hv hlvl_mem) hdisj
          obtain ⟨h0b, hleb, hsb, hdb⟩ := ih.1 _ s1 r hs2 h0a hlea
          exact ⟨h0b, hleb, le_trans hsa hsb, hdb⟩
        · rw [if_neg hrem] at hrun
          obtain rfl : s = r := Option.some.inj hrun
          exact ⟨h0, hle, le_refl _, Or.inl (le_of_not_lt hrem)⟩
    · intro ps s r hrun h0 hle hple hdisj
      cases ps with
      | nil =>
        rw [rgRun] at hrun
        obtain rfl : s = r := Option.some.inj hrun
        rcases hdisj with ⟨p, hp, _⟩ | hML
        · cases hp
        · exact ⟨h0, hle, le_refl _, Or.inr hML⟩
      | cons p ps =>
        rw [rgRun] at hrun
        by_cases hp : s.updatedOffset < p
        · rw [if_pos hp] at hrun
          by_cases hgap : s.remainingLength ≤ p - s.updatedOffset
          · rw [if_pos hgap] at hrun
            obtain rfl := (Option.some.inj hrun).symm
            refine ⟨h0, hle, le_refl _, Or.inl ?_⟩
            simp only []
            linarith
          · rw [if_neg hgap] at hrun
            have hpML : p ≤ ML := hple p (by simp)
            obtain ⟨h0b, hleb, hsb, hdb⟩ :=
              ih.1 0 _ r hrun (lt_trans h0 hp) hpML
            exact ⟨h0b, hleb, le_trans (le_of_lt hp) hsb, hdb⟩
        · rw [if_neg hp] at hrun
          have hdisj2 : (∃ q ∈ ps, s.updatedOffset < q) ∨ s.updatedOffset = ML := by
            rcases hdisj with ⟨q, hq, hoq⟩ | hML
            · rcases List.mem_cons.mp hq with rfl | hq2
              · exact absurd hoq hp
              · exact Or.inl ⟨q, hq2, hoq⟩
            · exact Or.inr hML
          exact ih.2 ps s r hrun h0 hle (fun q hq => hple q (List.mem_cons_of_mem p hq)) hdisj2

/-- Partial correctness of successful splitter runs over a valid
hierarchy.  For a span that fits inside the measure (cursor strictly
positive, cursor + remaining ≤ measure length), any completed levelPass
appends one contiguous chain of fragments starting at the cursor whose
lengths sum exactly to the remaining length; a levelPass with no
remaining length returns the state unchanged. -/
theorem run_spec {h : List (List ℚ)} {ML : ℚ} (hv : ValidHierarchy h ML) (sp : Bool) :
    ∀ fuel : Nat,
      (∀ (i : Nat) (s r : RGState), rgRun h sp fuel (RGCall.level i) s = some r →
        (s.remainingLength ≤ 0 → r = s) ∧
        (0 < s.remainingLength → 0 < s.updatedOffset →
          s.updatedOffset + s.remainingLength ≤ ML → RunPost s r)) ∧
      (∀ (ps : List ℚ) (s r : RGState), rgRun h sp fuel (RGCall.advance ps) s = some r →
        0 < s.remainingLength → 0 < s.updatedOffset →
        s.updatedOffset + s.remainingLength ≤ ML →
        (∃ p ∈ ps, s.updatedOffset < p) → RunPost s r) := by
  have hne : h ≠ [] := by
    intro he
    have := hv.2.1
    rw [he] at this
    simp at this
  intro fuel
  induction fuel with
  | zero =>
    constructor
    · intro i s r hrun
      simp [rgRun] at hrun
    · intro ps s r hrun
      simp [rgRun] at hrun
  | succ fuel ih =>
    constructor
    · intro i s r hrun
      constructor
      · intro hrem
        exact rg_stop_inv hrem hrun
      · intro hrem h0 hfit
        rw [rgRun] at hrun
        have hoffML : s.updatedOffset < ML := by linarith
        by_cases hi : i < h.length
        · rw [if_pos hi, if_neg (not_le.mpr hrem)] at hrun
          by_cases hmem : s.updatedOffset ∈ h.getD i []
          · rw [if_pos hmem] at hrun
            by_cases hi0 : i = 0
            · exfalso
              rcases valid_mem_level0 hv (hi0 ▸ hmem) with hz | hML
              · exact absurd hz (ne_of_gt h0)
              · exact absurd hML (ne_of_lt hoffML)
            · rw [if_neg hi0] at hrun
              rcases Option.bind_eq_some.mp hrun with ⟨s1, hs1, hs2⟩
              have hlvl_mem : (if sp then h.getD i [] else h.getD (i - 1) []) ∈ h := by
                by_cases hsp : sp
                · simpa [hsp] using getD_mem_of_lt hi
                · have hi1 : i - 1 < h.length := by omega
                  simpa [hsp] using getD_mem_of_lt hi1
              have hpost1 := ih.2 _ s s1 hs1 hrem h0 hfit
                ⟨ML, valid_ML_mem hv hlvl_mem, hoffML⟩
              obtain ⟨d, hpairs, hchain, hsum, hrem1⟩ := hpost1
              obtain rfl := (ih.1 _ s1 r hs2).1 hrem1
              exact ⟨d, hpairs, hchain, hsum, hrem1⟩
          · rw [if_neg hmem] at hrun
            exact (ih.1 _ s r hrun).2 hrem h0 hfit
        · rw [if_neg hi, if_pos hrem] at hrun
          rcases Option.bind_eq_some.mp hrun with ⟨s1, hs1, hs2⟩
          have hlvl_mem : h.getLastD [] ∈ h := getLastD_mem hne
          have hpost1 := ih.2 _ s s1 hs1 hrem h0 hfit
            ⟨ML, valid_ML_mem hv hlvl_mem, hoffML⟩
          obtain ⟨d, hpairs, hchain, hsum, hrem1⟩ := hpost1
          obtain rfl := (ih.1 _ s1 r hs2).1 hrem1
          exact ⟨d, hpairs, hchain, hsum, hrem1⟩
    · intro ps s r hrun hrem h0 hfit hex
      cases ps with
      | nil =>
        rcases hex with ⟨p, hp, _⟩
        cases hp
      | cons p ps =>
        rw [rgRun] at hrun
        by_cases hp : s.updatedOffset < p
        · rw [if_pos hp] at hrun
          by_cases hgap : s.remainingLength ≤ p - s.updatedOffset
          · rw [if_pos hgap] at hrun
            obtain rfl := (Option.some.inj hrun).symm
            refine ⟨[(s.updatedOffset, s.remainingLength)], by simp, ⟨rfl, trivial⟩, by simp, ?_⟩
            simp only []
            linarith
          · rw [if_neg hgap] at hrun
            have hrem2 : 0 < s.remainingLength - (p - s.updatedOffset) := by linarith
            have hfit2 : p + (s.remainingLength - (p - s.updatedOffset)) ≤ ML := by linarith
            obtain ⟨d2, hpairs2, hchain2, hsum2, hrem2'⟩ :=
              (ih.1 0 _ r hrun).2 hrem2 (lt_trans h0 hp) hfit2
            refine ⟨(s.updatedOffset, p - s.updatedOffset) :: d2, ?_, ?_, ?_, hrem2'⟩
            · rw [hpairs2]
              simp
            · refine ⟨rfl, ?_⟩
              have hpe : s.updatedOffset + (p - s.updatedOffset) = p := by ring
              simpa [hpe] using hchain2
            · simp at hsum2 ⊢
              linarith
        · rw [if_neg hp] at hrun
          have hex2 : ∃ q ∈ ps, s.updatedOffset < q := by
            rcases hex with ⟨q, hq, hoq⟩
            rcases List.mem_cons.mp hq with rfl | hq2
            · exact absurd hoq hp
            · exact ⟨q, hq2, hoq⟩
          exact ih.2 ps s r hrun hrem h0 hfit hex2

/-- Termination of the post-loop fallback with the cursor parked on the
measure length: the no-op advance on the weakest level is followed by the
level-0 emit. -/
theorem rg_mlwalk_post {h : List (List ℚ)} {ML : ℚ} (hv : ValidHierarchy h ML) (sp : Bool)
    {s : RGState} (hoff : s.updatedOffset = ML) {i : Nat} (hi : h.length ≤ i) :
    ∃ fuel r, rgRun h sp fuel (RGCall.level i) s = some r := by
  by_cases hrem : s.remainingLength ≤ 0
  · exact ⟨1, s, rg_stop hrem⟩
  · have hne : h ≠ [] := by
      intro he
      have := hv.2.1
      rw [he] at this
      simp at this
    have hnoop : ∀ p ∈ h.getLastD [], ¬ s.updatedOffset < p := by
      intro p hp
      have := valid_le hv (getLastD_mem hne) p hp
      rw [hoff]
      exact not_lt.mpr this
    have hmem0 : s.updatedOffset ∈ h.getD 0 [] := by
      rw [hv.2.2.1, hoff]
      simp
    refine ⟨(h.getLastD []).length + 1 + 1,
      ⟨s.updatedOffset, s.remainingLength, s.pairs ++ [(s.updatedOffset, s.remainingLength)]⟩, ?_⟩
    rw [rgRun]
    rw [if_neg (not_lt.mpr hi), if_pos (not_le.mp hrem)]
    rw [rg_adv_noop hnoop]
    have := @rg_emit0 h sp s ((h.getLastD []).length)
      hv.2.1 hmem0 (not_le.mp hrem)
    rw [Option.some_bind, this]

/-- Termination of levelPass from any level index with the cursor parked
on the measure length: every advance is a no-op until the level-0 emit. -/
theorem rg_mlwalk {h : List (List ℚ)} {ML : ℚ} (hv : ValidHierarchy h ML) (sp : Bool) :
    ∀ (k : Nat) {s : RGState}, s.updatedOffset = ML → ∀ {i : Nat}, h.length ≤ i + k →
      ∃ fuel r, rgRun h sp fuel (RGCall.level i) s = some r := by
  intro k
  induction k with
  | zero =>
    intro s hoff i hik
    exact rg_mlwalk_post hv sp hoff (by omega)
  | succ k ihk =>
    intro s hoff i hik
    by_cases hi : i < h.length
    · by_cases hrem : s.remainingLength ≤ 0
      · exact ⟨1, s, rg_stop hrem⟩
      · have hmem : s.updatedOffset ∈ h.getD i [] := by
          rw [hoff]
          exact valid_ML_mem hv (getD_mem_of_lt hi)
        by_cases hi0 : i = 0
        · subst hi0
          exact ⟨1, ⟨s.updatedOffset, s.remainingLength,
            s.pairs ++ [(s.updatedOffset, s.remainingLength)]⟩,
            rg_emit0 hv.2.1 hmem (not_le.mp hrem)⟩
        · have hlvl_mem : (if sp then h.getD i [] else h.getD (i - 1) []) ∈ h := by
            by_cases hsp : sp
            · simpa [hsp] using getD_mem_of_lt hi
            · have hi1 : i - 1 < h.length := by omega
              simpa [hsp] using getD_mem_of_lt hi1
          have hnoop : ∀ p ∈ (if sp then h.getD i [] else h.getD (i - 1) []),
              ¬ s.updatedOffset < p := by
            intro p hp
            have := valid_le hv hlvl_mem p hp
            rw [hoff]
            exact not_lt.mpr this
          obtain ⟨f2, r, hf2⟩ := @ihk s hoff (i + 1) (by omega)
          set lvl := if sp then h.getD i [] else h.getD (i - 1) [] with hlvl
          refine ⟨max (lvl.length + 1) f2 + 1, r, ?_⟩
          rw [rgRun]
          rw [if_pos hi, if_neg hrem, if_pos hmem, if_neg hi0]
          rw [rg_mono_le (le_max_left _ _) (rg_adv_noop hnoop)]
          rw [Option.some_bind]
          exact rg_mono_le (le_max_right _ _) hf2
    · exact rg_mlwalk_post hv sp hoff (by omega)

/-- Termination of the splitter: from any cursor in (0, measureLength],
every levelPass call over a valid hierarchy completes with enough fuel.
The induction is on the number of weakest-level boundaries strictly
beyond the cursor, which drops at every productive advance. -/
theorem rg_exists_level {h : List (List ℚ)} {ML : ℚ} (hv : ValidHierarchy h ML) (sp : Bool) :
    ∀ (N : Nat) (s : RGState), mCount h s ≤ N → 0 < s.updatedOffset →
      s.updatedOffset ≤ ML → ∀ i : Nat,
      ∃ fuel r, rgRun h sp fuel (RGCall.level i) s = some r := by
  have hne : h ≠ [] := by
    intro he
    have := hv.2.1
    rw [he] at this
    simp at this
  intro N
  induction N with
  | zero =>
    intro s hm h0 hle i
    by_cases hoff : s.updatedOffset = ML
    · exact rg_mlwalk hv sp h.length hoff (by omega)
    · exfalso
      have hlt : s.updatedOffset < ML := lt_of_le_of_ne hle hoff
      have hpos := countP_lt_of_mem_of_lt hlt (valid_ML_mem hv (getLastD_mem hne))
      unfold mCount at hm
      omega
  | succ N ihN =>
    intro s hm h0 hle i
    by_cases hrem : s.remainingLength ≤ 0
    · exact ⟨1, s, rg_stop hrem⟩
    by_cases hoff : s.updatedOffset = ML
    · exact rg_mlwalk hv sp h.length hoff (by omega)
    have hlt : s.updatedOffset < ML := lt_of_le_of_ne hle hoff
    have advLem : ∀ ps : List ℚ, (∀ p ∈ ps, p ∈ h.getLastD []) → (∀ p ∈ ps, p ≤ ML) →
        ∃ fuel r, rgRun h sp fuel (RGCall.advance ps) s = some r := by
      intro ps
      induction ps with
      | nil =>
        intro _ _
        exact ⟨1, s, by rw [rgRun]⟩
      | cons p ps ihps =>
        intro hfin hle2
        by_cases hp : s.updatedOffset < p
        · by_cases hgap : s.remainingLength ≤ p - s.updatedOffset
          · refine ⟨1, ⟨s.updatedOffset, s.remainingLength - (p - s.updatedOffset),
              s.pairs ++ [(s.updatedOffset, s.remainingLength)]⟩, ?_⟩
            rw [rgRun, if_pos hp, if_pos hgap]
          · obtain ⟨f, r, hf⟩ := ihN ⟨p, s.remainingLength - (p - s.updatedOffset),
                s.pairs ++ [(s.updatedOffset, p - s.updatedOffset)]⟩
              (show (h.getLastD []).countP (fun x => decide (p < x)) ≤ N from by
                have hlt2 := countP_lt_of_mem_of_lt hp (hfin p (by simp))
                unfold mCount at hm
                omega)
              (lt_trans h0 hp) (hle2 p (by simp)) 0
            refine ⟨f + 1, r, ?_⟩
            rw [rgRun, if_pos hp, if_neg hgap]
            exact hf
        · obtain ⟨f, r, hf⟩ := ihps (fun q hq => hfin q (List.mem_cons_of_mem p hq))
            (fun q hq => hle2 q (List.mem_cons_of_mem p hq))
          refine ⟨f + 1, r, ?_⟩
          rw [rgRun, if_neg hp]
          exact hf
    have fallbackCase : ∀ j : Nat, h.length ≤ j →
        ∃ fuel r, rgRun h sp fuel (RGCall.level j) s = some r := by
      intro j hj
      obtain ⟨f1, s1, hf1⟩ := advLem (h.getLastD []) (fun p hp => hp)
        (valid_le hv (getLastD_mem hne))
      obtain ⟨h0b, hleb, _, hdb⟩ := (run_weak hv sp f1).2 _ s s1 hf1 h0 hle
        (valid_le hv (getLastD_mem hne))
        (Or.inl ⟨ML, valid_ML_mem hv (getLastD_mem hne), hlt⟩)
      rcases hdb with hr0 | hrML
      · refine ⟨max f1 1 + 1, s1, ?_⟩
        rw [rgRun, if_neg (not_lt.mpr hj), if_pos (not_le.mp hrem)]
        rw [rg_mono_le (le_max_left _ _) hf1, Option.some_bind]
        exact rg_mono_le (le_max_right _ _) (@rg_stop h sp 0 s1 0 hr0)
      · obtain ⟨f2, r, hf2⟩ := @rg_mlwalk h ML hv sp h.length s1 hrML 0 (by omega)
        refine ⟨max f1 f2 + 1, r, ?_⟩
        rw [rgRun, if_neg (not_lt.mpr hj), if_pos (not_le.mp hrem)]
        rw [rg_mono_le (le_max_left _ _) hf1, Option.some_bind]
        exact rg_mono_le (le_max_right _ _) hf2
    have levelWalk : ∀ (k j : Nat), h.length ≤ j + k →
        ∃ fuel r, rgRun h sp fuel (RGCall.level j) s = some r := by
      intro k
      induction k with
      | zero =>
        intro j hj
        exact fallbackCase j (by omega)
      | succ k ihk =>
        intro j hj
        by_cases hjlen : j < h.length
        · by_cases hmem : s.updatedOffset ∈ h.getD j []
          · by_cases hj0 : j = 0
            · exfalso
              rcases valid_mem_level0 hv (hj0 ▸ hmem) with hz | hML
              · exact absurd hz (ne_of_gt h0)
              · exact absurd hML hoff
            · have hlvl_mem : (if sp then h.getD j [] else h.getD (j - 1) []) ∈ h := by
                by_cases hsp : sp
                · simpa [hsp] using getD_mem_of_lt hjlen
                · have hj1 : j - 1 < h.length := by omega
                  simpa [hsp] using getD_mem_of_lt hj1
              obtain ⟨f1, s1, hf1⟩ := advLem _
                (fun p hp => valid_finest_mem hv
                  (show (if sp then j else j - 1) < h.length by
                    by_cases hsp : sp
                    · simpa [hsp] using hjlen
                    · simp [hsp]; omega)
                  (by
                    by_cases hsp : sp
                    · simpa [hsp] using hp
                    · simpa [hsp] using hp))
                (valid_le hv hlvl_mem)
              obtain ⟨h0b, hleb, _, hdb⟩ := (run_weak hv sp f1).2 _ s s1 hf1 h0 hle
                (valid_le hv hlvl_mem)
                (Or.inl ⟨ML, valid_ML_mem hv hlvl_mem, hlt⟩)
              rcases hdb with hr0 | hrML
              · refine ⟨max f1 1 + 1, s1, ?_⟩
                rw [rgRun, if_pos hjlen, if_neg hrem, if_pos hmem, if_neg hj0]
                rw [rg_mono_le (le_max_left _ _) hf1, Option.some_bind]
                exact rg_mono_le (le_max_right _ _) (@rg_stop h sp (j + 1) s1 0 hr0)
              · obtain ⟨f2, r, hf2⟩ := @rg_mlwalk h ML hv sp h.length s1 hrML (j + 1) (by omega)
                refine ⟨max f1 f2 + 1, r, ?_⟩
                rw [rgRun, if_pos hjlen, if_neg hrem, if_pos hmem, if_neg hj0]
                rw [rg_mono_le (le_max_left _ _) hf1, Option.some_bind]
                exact rg_mono_le (le_max_right _ _) hf2
          · obtain ⟨f, r, hf⟩ := ihk (j + 1) (by omega)
            refine ⟨f + 1, r, ?_⟩
            rw [rgRun, if_pos hjlen, if_neg hrem, if_neg hmem]
            exact hf
        · exact fallbackCase j (by omega)
    exact levelWalk h.length i (by omega)

/-- Termination of a fresh ReGrouper invocation for any start offset in
[0, measureLength) and any rational length. -/
theorem rg_exists_top {h : List (List ℚ)} {ML : ℚ} (hv : ValidHierarchy h ML)
    (sp : Bool) (off len : ℚ) (h0 : 0 ≤ off) (hlt : off < ML) :
    ∃ fuel r, rgRun h sp fuel (RGCall.level 0) ⟨off, len, []⟩ = some r := by
  rcases eq_or_lt_of_le h0 with heq | hoffpos
  · subst heq
    by_cases hrem : len ≤ 0
    · exact ⟨1, ⟨0, len, []⟩, rg_stop hrem⟩
    · have hmem : (0 : ℚ) ∈ h.getD 0 [] := by
        rw [hv.2.2.1]
        simp
      exact ⟨1, ⟨0, len, [] ++ [(0, len)]⟩,
        rg_emit0 hv.2.1 hmem (not_le.mp hrem)⟩
  · exact rg_exists_level hv sp (mCount h ⟨off, len, []⟩) ⟨off, len, []⟩ le_rfl
      hoffpos (le_of_lt hlt) 0

/-- C9: for every hierarchy satisfying the section-3 invariants and every
span whose startOffset lies in [0, measureLength) (any rational length,
with or without the same-level-split flag), the mutually recursive
levelPass/advanceOneStep computation terminates: some fuel makes the
fuel-indexed interpreter return a result. -/
theorem c9_termination {h : List (List ℚ)} {ML : ℚ} (hv : ValidHierarchy h ML)
    (sp : Bool) (off len : ℚ) (h0 : 0 ≤ off) (hlt : off < ML) :
    ∃ fuel r, rgRun h sp fuel (RGCall.level 0) ⟨off, len, []⟩ = some r :=
  rg_exists_top hv sp off len h0 hlt

/-- C9 witness: the termination theorem applied to the concrete 4/4
hierarchy with startOffset 1/8 and the overflowing length 5. -/
theorem c9_termination_witness :
    ValidHierarchy hierarchy44 4 ∧ (0 : ℚ) ≤ 1/8 ∧ (1/8 : ℚ) < 4 ∧
      ∃ fuel r, rgRun hierarchy44 false fuel (RGCall.level 0) ⟨1/8, 5, []⟩ = some r :=
  ⟨of_decide_eq_true (by with_unfolding_all rfl),
   by norm_num, by norm_num,
   @c9_termination hierarchy44 4 (of_decide_eq_true (by with_unfolding_all rfl)) false (1/8) 5
     (by norm_num) (by norm_num)⟩

/-- C1 amended: for every hierarchy satisfying the section-3 invariants
and every span with startOffset in [0, measureLength): if the span length
is positive and the span fits inside the measure (startOffset + length ≤
measureLength), the splitter terminates, and every terminating run emits
a nonempty fragment list whose first position is the startOffset, which
is contiguous (each fragment starts where the previous one ends), and
whose lengths sum exactly to the span length; if the length is zero or
negative, no fragments are emitted. -/
theorem c1_fragment_properties {h : List (List ℚ)} {ML : ℚ} (hv : ValidHierarchy h ML)
    (sp : Bool) (off len : ℚ) (h0 : 0 ≤ off) (hlt : off < ML) :
    (0 < len → off + len ≤ ML →
      (∃ fuel r, rgRun h sp fuel (RGCall.level 0) ⟨off, len, []⟩ = some r) ∧
      (∀ fuel r, rgRun h sp fuel (RGCall.level 0) ⟨off, len, []⟩ = some r →
        r.pairs ≠ [] ∧ r.pairs.head?.map Prod.fst = some off ∧
        chainFrom off r.pairs ∧ (r.pairs.map Prod.snd).sum = len)) ∧
    (len ≤ 0 → ∀ fuel r, rgRun h sp fuel (RGCall.level 0) ⟨off, len, []⟩ = some r →
      r.pairs = []) := by
  constructor
  · intro hpos hfit
    refine ⟨rg_exists_top hv sp off len h0 hlt, ?_⟩
    intro fuel r hrun
    rcases eq_or_lt_of_le h0 with heq | hoffpos
    · subst heq
      cases fuel with
      | zero => simp [rgRun] at hrun
      | succ fuel =>
        have hmem : ((⟨0, len, []⟩ : RGState)).updatedOffset ∈ h.getD 0 [] := by
          rw [hv.2.2.1]
          simp
        rw [rg_emit0 hv.2.1 hmem hpos] at hrun
        obtain rfl := (Option.some.inj hrun).symm
        refine ⟨by simp, by simp, ⟨rfl, trivial⟩, by simp⟩
    · have hpost := ((run_spec hv sp fuel).1 0 _ r hrun).2 hpos hoffpos hfit
      obtain ⟨d, hpairs, hchain, hsum, _⟩ := hpost
      simp only [List.nil_append] at hpairs
      subst hpairs
      have hdne : r.pairs ≠ [] := by
        apply ne_nil_of_sum_ne_zero
        rw [hsum]
        exact ne_of_gt hpos
      exact ⟨hdne, chainFrom_head hchain hdne, hchain, hsum⟩
  · intro hneg fuel r hrun
    have := rg_stop_inv hneg hrun
    rw [this]

/-- C1 witness: the amended fragment-properties theorem applied to the
concrete 4/4 hierarchy with the canonical in-measure span (0.25, 2.0). -/
theorem c1_fragment_properties_witness :
    ValidHierarchy hierarchy44 4 ∧ (0 : ℚ) ≤ 1/4 ∧ (1/4 : ℚ) < 4 ∧
      (0 : ℚ) < 2 ∧ (1/4 : ℚ) + 2 ≤ 4 ∧
      ((∃ fuel r, rgRun hierarchy44 false fuel (RGCall.level 0) ⟨1/4, 2, []⟩ = some r) ∧
       (∀ fuel r, rgRun hierarchy44 false fuel (RGCall.level 0) ⟨1/4, 2, []⟩ = some r →
         r.pairs ≠ [] ∧ r.pairs.head?.map Prod.fst = some (1/4) ∧
         chainFrom (1/4) r.pairs ∧ (r.pairs.map Prod.snd).sum = 2)) :=
  ⟨of_decide_eq_true (by with_unfolding_all rfl), by norm_num, by norm_num,
   by norm_num, by norm_num,
   (@c1_fragment_properties hierarchy44 4 (of_decide_eq_true (by with_unfolding_all rfl))
     false (1/4) 2 (by norm_num) (by norm_num)).1 (by norm_num) (by norm_num)⟩

/-- Sanity check mirroring the repository's unit test testSplitSameLevel,
second pair: ReGrouper(0.5, 2, '6/8') with and without the same-level
split. -/
theorem sanity_68_length2 :
    reGrouper 200 (1/2) 2 (some (r"6/8")) none none none false =
      Except.ok (some [(1/2, 1), (3/2, 1)]) ∧
    reGrouper 200 (1/2) 2 (some (r"6/8")) none none none true =
      Except.ok (some [(1/2, 1/2), (1, 1/2), (3/2, 1)]) :=
  of_decide_eq_true (by with_unfolding_all rfl)

/-- Sanity check mirroring two cases of the repository's unit test
testFromPulseLength: ReGrouper(7, 6, pulseLengths=[1,2,4,8,16,32]) and
ReGrouper(13, 6, pulseLengths=[1,2,4,8,24]). -/
theorem sanity_pulse_length_cases :
    reGrouper 200 7 6 none none (some [1, 2, 4, 8, 16, 32]) none false =
      Except.ok (some [(7, 1), (8, 5)]) ∧
    reGrouper 200 13 6 none none (some [1, 2, 4, 8, 24]) none false =
      Except.ok (some [(13, 1), (14, 2), (16, 3)]) :=
  of_decide_eq_true (by with_unfolding_all rfl)
